import Mathlib

/-!
Verification of the query-orchestration / result-fusion layer of the
`mcp-semantic-search` API (`api/controllers/search.controller.js` and
`api/controllers/document.controller.js`), shallowly embedded in Lean.

JavaScript numbers carrying relevance scores are modelled as exact rationals
(`ℚ`); strings as Lean `String`; absent (`undefined`) fields as `Option`.
JavaScript truthiness on strings (`undefined`, `null` and `""` are falsy) is
modelled explicitly wherever the source relies on it.
-/

namespace McpSearch

/-- Metadata mapping attached to a backend candidate.  The fusion code only
inspects its `doc_id` field (`result.metadata.doc_id`); the remaining fields
are carried opaquely.  `doc_id = none` models an absent (`undefined`) field. -/
structure Metadata where
  doc_id : Option String
  extra : List (String × String)
deriving DecidableEq, Repr

/-- A retrieval hit returned by the vector-store or keyword backend
(`searchResponse.data.results[i]`): optional `chunk_id`, text, score and a
metadata object.  The controller dereferences `result.metadata.doc_id`, so a
candidate is modelled with its metadata object present. -/
structure Candidate where
  chunk_id : Option String
  text : String
  score : ℚ
  metadata : Metadata
deriving DecidableEq, Repr

/-- JavaScript string truthiness: `undefined` and `""` are falsy. -/
def truthyOpt : Option String → Bool
  | none => false
  | some s => s ≠ ""

/-- The identity key computed by `result.chunk_id || result.metadata.doc_id`:
a truthy `chunk_id` wins, otherwise the expression evaluates to
`metadata.doc_id` unchanged (which may itself be `undefined`, modelled as
`none`). -/
def jsId (chunk : Option String) (m : Metadata) : Option String :=
  if truthyOpt chunk then chunk else m.doc_id

/-- Identity key of a backend candidate (`hybridReranking`, lines 173/184). -/
def resolveId (c : Candidate) : Option String :=
  jsId c.chunk_id c.metadata

/-- An entry of the reranking `Map`: the spread of a candidate plus the
`semanticScore` / `keywordScore` / recomputed `score` fields. -/
structure FusedEntry where
  chunk_id : Option String
  text : String
  metadata : Metadata
  semanticScore : ℚ
  keywordScore : ℚ
  score : ℚ
deriving DecidableEq, Repr

/-- Identity key of a map entry (the spread preserves `chunk_id` and
`metadata`, so this coincides with the key it was stored under). -/
def entryId (e : FusedEntry) : Option String :=
  jsId e.chunk_id e.metadata

/-- Entry created for a semantic candidate:
`{...result, semanticScore: result.score, keywordScore: 0, score: result.score * 0.7}`. -/
def semEntry (c : Candidate) : FusedEntry :=
  ⟨c.chunk_id, c.text, c.metadata, c.score, 0, c.score * (7/10)⟩

/-- Entry created for a keyword candidate whose key is not yet in the map:
`{...result, semanticScore: 0, keywordScore: result.score, score: result.score * 0.3}`. -/
def kwEntry (c : Candidate) : FusedEntry :=
  ⟨c.chunk_id, c.text, c.metadata, 0, c.score, c.score * (3/10)⟩

/-- In-place update of an existing entry by a keyword candidate with score `w`:
`existing.keywordScore = w; existing.score = existing.semanticScore * 0.7 + w * 0.3`. -/
def kwMerge (e : FusedEntry) (w : ℚ) : FusedEntry :=
  { e with keywordScore := w, score := e.semanticScore * (7/10) + w * (3/10) }

/-- The reranking `Map`, as an insertion-ordered association list (a JS `Map`
iterates its entries in insertion order; re-`set`ting an existing key updates
the value in place without moving the entry). -/
abbrev RerankMap := List (Option String × FusedEntry)

/-- `Map.prototype.set`: update in place if the key exists, else append. -/
def setEntry (key : Option String) (v : FusedEntry) : RerankMap → RerankMap
  | [] => [(key, v)]
  | (k, e) :: rest =>
    if k = key then (k, v) :: rest else (k, e) :: setEntry key v rest

/-- One step of the keyword pass (`keywordResults.forEach`): if the key is
already present, mutate the existing entry's scores, otherwise insert a fresh
keyword-only entry. -/
def kwUpdate (m : RerankMap) (c : Candidate) : RerankMap :=
  match m with
  | [] => [(resolveId c, kwEntry c)]
  | (k, e) :: rest =>
    if k = resolveId c then (k, kwMerge e c.score) :: rest
    else (k, e) :: kwUpdate rest c

/-- The semantic pass (`semanticResults.forEach`): `map.set(id, {...})`. -/
def semPass (m : RerankMap) : List Candidate → RerankMap
  | [] => m
  | c :: cs => semPass (setEntry (resolveId c) (semEntry c) m) cs

/-- The keyword pass over the map produced by the semantic pass. -/
def kwPass (m : RerankMap) : List Candidate → RerankMap
  | [] => m
  | c :: cs => kwPass (kwUpdate m c) cs

/-- The fully built reranking map for a pair of candidate lists. -/
def fuseMap (s k : List Candidate) : RerankMap :=
  kwPass (semPass [] s) k

/-- `Array.from(resultMap.values())`: the entries in insertion order
(semantic-pass entries first, then keyword-only entries, each in input
order). -/
def fuseValues (s k : List Candidate) : List FusedEntry :=
  (fuseMap s k).map Prod.snd

/-- Stable insertion step for `.sort((a, b) => b.score - a.score)`: an element
is placed after every earlier element whose score is at least as large, which
together with `sortDesc` realises the unique stable descending order the
ECMAScript stable `Array.prototype.sort` produces for this comparator. -/
def insertDesc (x : FusedEntry) : List FusedEntry → List FusedEntry
  | [] => [x]
  | y :: ys => if x.score ≥ y.score then x :: y :: ys else y :: insertDesc x ys

/-- Stable sort by `score` descending (model of
`.sort((a, b) => b.score - a.score)`, which is stable per the ECMAScript
specification; any stable sort under this comparator yields the same list). -/
def sortDesc : List FusedEntry → List FusedEntry
  | [] => []
  | x :: xs => insertDesc x (sortDesc xs)

/-- `arr.slice(0, e)` for a JS number `e`: a nonnegative end index takes the
first `e` elements; a negative end index counts from the end of the array. -/
def jsSlice0 (l : List α) (e : Int) : List α :=
  if 0 ≤ e then l.take e.toNat else l.take (l.length - (-e).toNat)

/-- `hybridReranking(semanticResults, keywordResults, limit)`
(search.controller.js lines 167–205): build the map by the semantic and
keyword passes, sort its values by combined score descending (stably) and
`slice(0, limit)`. -/
def hybridReranking (s k : List Candidate) (limit : Int) : List FusedEntry :=
  jsSlice0 (sortDesc (fuseValues s k)) limit

/-- Lookup in the reranking map (`resultMap.get` / `resultMap.has`). -/
def lookupKey (key : Option String) : RerankMap → Option FusedEntry
  | [] => none
  | (k, e) :: rest => if k = key then some e else lookupKey key rest

/-- The keys of the reranking map, in insertion order. -/
def mapKeys (m : RerankMap) : List (Option String) :=
  m.map Prod.fst

/-- Every entry of the map is stored under its own identity key (an invariant
of both passes, since the spread preserves `chunk_id` and `metadata`). -/
def keyConsistent (m : RerankMap) : Prop :=
  ∀ p ∈ m, entryId p.2 = p.1

/-! ### The highlighter (`highlightQuery`, search.controller.js lines 150–162)

The source builds `new RegExp("\\b(" + queryWords.join("|") + ")\\b", "gi")`
from the whitespace-split, length-filtered, lowercased query words and runs a
global replace with `<mark>$1</mark>`.  The model implements the semantics of
that regular expression for pattern-literal tokens (tokens made of word
characters, which contain no regex metacharacters): a leftmost scan that, at
each word boundary, tries the alternatives in order, requires a word boundary
after the matched token, wraps the matched slice of the original text, and —
exactly as the ECMAScript `replace` on a global regex — advances one character
past an empty match.  When `queryWords` is empty, `join` yields `""` and the
group `()` holds a single empty alternative, which matches (emptily) at every
word boundary. -/

/-- Word characters of the regex `\b` boundary: `[A-Za-z0-9_]`, with
out-of-range positions counting as non-word. -/
def wordOpt : Option Char → Bool
  | none => false
  | some c => c.isAlphanum || c = '_'

/-- `\b` holds between two (optional) characters iff exactly one side is a
word character. -/
def boundary (prev next : Option Char) : Bool :=
  wordOpt prev != wordOpt next

/-- Split on whitespace characters (`split(/\s+/)`); splitting at every single
whitespace character yields the same tokens of length \x3e 2 as splitting on
runs, since empty fragments are discarded by the length filter. -/
def splitWsAux : List Char → List Char → List (List Char)
  | [], cur => [cur.reverse]
  | c :: rest, cur =>
    if c.isWhitespace then cur.reverse :: splitWsAux rest []
    else splitWsAux rest (c :: cur)

/-- All whitespace-separated fragments of a character list. -/
def splitWs (l : List Char) : List (List Char) :=
  splitWsAux l []

/-- `query.toLowerCase().split(/\s+/).filter(word => word.length > 2)`. -/
def keptTokens (q : String) : List (List Char) :=
  (splitWs (q.data.map Char.toLower)).filter (fun w => w.length > 2)

/-- Case-insensitive match of a (lowercased) token against a prefix of the
text; returns the matched original-case slice and the remaining text. -/
def matchTok : List Char → List Char → Option (List Char × List Char)
  | [], rest => some ([], rest)
  | _ :: _, [] => none
  | t :: ts, c :: cs =>
    if c.toLower = t then (matchTok ts cs).map (fun p => (c :: p.1, p.2)) else none

/-- Try the alternatives of the group in order at the current position; an
alternative succeeds when its characters match and a word boundary follows. -/
def tryAlts (prev : Option Char) (rest : List Char) :
    List (List Char) → Option (List Char × List Char)
  | [] => none
  | t :: ts =>
    match matchTok t rest with
    | some (pre, suf) =>
      if boundary (match pre.getLast? with | none => prev | some c => some c) suf.head? then
        some (pre, suf)
      else tryAlts prev rest ts
    | none => tryAlts prev rest ts

/-- Attempt a match of `\b(alt₁|…|altₙ)\b` at the current position. -/
def tryMatch (alts : List (List Char)) (prev : Option Char) (rest : List Char) :
    Option (List Char × List Char) :=
  if boundary prev rest.head? then tryAlts prev rest alts else none

/-- Global replace scan: wrap each match in `<mark>…</mark>`; after an empty
match, copy one character and continue (ECMAScript advances `lastIndex` by one
past an empty match).  `fuel` bounds the recursion; `length + 1` steps always
suffice since every recursive call consumes at least one character. -/
def scanText (alts : List (List Char)) : Option Char → List Char → Nat → List Char
  | _, t, 0 => t
  | prev, t, fuel + 1 =>
    match tryMatch alts prev t with
    | some (pre, suf) =>
      match pre with
      | [] =>
        "<mark></mark>".data ++
          (match t with
           | [] => []
           | c :: rest => c :: scanText alts (some c) rest fuel)
      | _ =>
        "<mark>".data ++ pre ++ "</mark>".data ++ scanText alts pre.getLast? suf fuel
    | none =>
      match t with
      | [] => []
      | c :: rest => c :: scanText alts (some c) rest fuel

/-- `highlightQuery(text, query)`: return the text unchanged when query or
text is falsy; otherwise run the global whole-word case-insensitive replace
over the alternatives (`()` with its single empty alternative when no query
word survives the length filter). -/
def highlightQuery (text : String) (query : Option String) : String :=
  match query with
  | none => text
  | some q =>
    if q = "" ∨ text = "" then text
    else
      let alts := match keptTokens q with
        | [] => [[]]
        | ts => ts
      String.mk (scanText alts none text.data (text.data.length + 1))

/-! ### The fan-out coordinator (`hybridSearch` / `semanticSearch`)

Backends are modelled as per-request test doubles: each collaborator either
resolves with a response body (`some …`, with `Option` fields for absent JSON
members) or rejects (`none`, an `axios` exception, which the controller's
`catch` turns into `next(error)`).  Each coordinator returns its outcome
together with the ordered list of backend calls it issued. -/

/-- Body of a resolved Embedding Service response.  `data` is the axios
response body; `none` models a falsy body (`!embedResponse.data`). -/
structure EmbedData where
  success : Bool
  embedding : List ℚ
deriving DecidableEq, Repr

/-- A resolved embedding call. -/
structure EmbedResult where
  data : Option EmbedData
deriving DecidableEq, Repr

/-- `embedResponse.data && embedResponse.data.success`. -/
def embedOk (er : EmbedResult) : Bool :=
  match er.data with
  | some d => d.success
  | none => false

/-- Body of a resolved vector-search response; `results`, `total_matches` and
`query_time_ms` may each be absent. -/
structure VSData where
  results : Option (List Candidate)
  total_matches : Option Int
  query_time_ms : Option Int
deriving DecidableEq, Repr

/-- A resolved vector-search call. -/
structure VSResult where
  data : VSData
deriving DecidableEq, Repr

/-- Body of a resolved keyword-search response. -/
structure KSData where
  results : Option (List Candidate)
deriving DecidableEq, Repr

/-- A resolved keyword-search call. -/
structure KSResult where
  data : KSData
deriving DecidableEq, Repr

/-- The behaviour of the three backend collaborators during one request:
`none` means the call rejects (network/HTTP failure), `some` that it resolves
with the given body. -/
structure Backend where
  embed : Option EmbedResult
  vectorSearch : Option VSResult
  keywordSearch : Option KSResult
deriving DecidableEq, Repr

/-- A recorded backend call with the arguments the controller passes. -/
inductive BackendCall where
  | embedText (text : String)
  | vectorSearch (k : Int)
  | keywordSearch (keywords : String) (limit : Int)
deriving DecidableEq, Repr

/-- A search request body: `{ query, keywords, limit = 5, filters }` (filters
are forwarded verbatim and never inspected, so they are omitted from the
model). -/
structure SearchRequest where
  query : Option String
  keywords : Option String
  limit : Option Int
deriving DecidableEq, Repr

/-- A caller-facing result record (`{ text, score, metadata, highlight }`). -/
structure PresentedResult where
  text : String
  score : ℚ
  metadata : Metadata
  highlight : String
deriving DecidableEq, Repr

/-- The hybrid response body
(`{ query, keywords, results, totalResults: results.length }`). -/
structure HybridResponse where
  query : Option String
  keywords : Option String
  results : List PresentedResult
  totalResults : Int
deriving DecidableEq, Repr

/-- The semantic response body
(`{ query, results, totalResults, executionTimeMs }`). -/
structure SemanticResponse where
  query : String
  results : List PresentedResult
  totalResults : Int
  executionTimeMs : Int
deriving DecidableEq, Repr

/-- Outcome of a controller: `res.status(s).json({error})`, `next(error)`
(an uncaught backend exception) or a successful JSON body. -/
inductive Outcome (α : Type) where
  | jsonError (status : Int) (error : String)
  | serverError
  | ok (body : α)
deriving DecidableEq, Repr

/-- Format a fused entry for the caller
(`{ text, score, metadata, highlight: highlightQuery(text, q) }`). -/
def present (q : Option String) (e : FusedEntry) : PresentedResult :=
  ⟨e.text, e.score, e.metadata, highlightQuery e.text q⟩

/-- `a || b` on two optional strings (`query || keywords`). -/
def jsOrOpt (a b : Option String) : Option String :=
  if truthyOpt a then a else b

/-- `x || d` for a JS number `x` (0 is falsy). -/
def jsOrInt (o : Option Int) (d : Int) : Int :=
  match o with
  | none => d
  | some n => if n = 0 then d else n

/-- The semantic branch of `hybridSearch` (lines 79–105): embed the query;
on a rejected embedding call the exception aborts the request (`none`); on a
non-success body the branch is abandoned with an empty list and no vector
call; otherwise issue the vector search with `limit * 2`. -/
def semBranch (b : Backend) (q : String) (limit : Int) :
    Option (List Candidate) × List BackendCall :=
  match b.embed with
  | none => (none, [.embedText q])
  | some er =>
    match er.data with
    | some d =>
      if d.success then
        match b.vectorSearch with
        | none => (none, [.embedText q, .vectorSearch (limit * 2)])
        | some vr =>
          (some (vr.data.results.getD []), [.embedText q, .vectorSearch (limit * 2)])
      else (some [], [.embedText q])
    | none => (some [], [.embedText q])

/-- The keyword branch of `hybridSearch` (lines 108–122): keyword search with
`limit * 2`; a rejected call aborts the request. -/
def kwBranch (b : Backend) (kw : String) (limit : Int) :
    Option (List Candidate) × List BackendCall :=
  match b.keywordSearch with
  | none => (none, [.keywordSearch kw (limit * 2)])
  | some kr => (some (kr.data.results.getD []), [.keywordSearch kw (limit * 2)])

/-- `hybridSearch` (search.controller.js lines 68–145): validate, run the
semantic branch (when `query` is truthy), then the keyword branch (when
`keywords` is truthy), fuse with `hybridReranking`, and present with
`highlightQuery(text, query || keywords)`. -/
def hybridSearch (b : Backend) (req : SearchRequest) :
    Outcome HybridResponse × List BackendCall :=
  if ¬ truthyOpt req.query ∧ ¬ truthyOpt req.keywords then
    (.jsonError 400 "Either search query or keywords are required", [])
  else
    let limit := req.limit.getD 5
    let sem := if truthyOpt req.query then semBranch b (req.query.getD "") limit
      else (some [], [])
    match sem with
    | (none, calls) => (.serverError, calls)
    | (some semanticResults, semCalls) =>
      let kw := if truthyOpt req.keywords then kwBranch b (req.keywords.getD "") limit
        else (some [], [])
      match kw with
      | (none, kwCalls) => (.serverError, semCalls ++ kwCalls)
      | (some keywordResults, kwCalls) =>
        let results := (hybridReranking semanticResults keywordResults limit).map
          (present (jsOrOpt req.query req.keywords))
        (.ok ⟨req.query, req.keywords, results, results.length⟩, semCalls ++ kwCalls)

/-- `semanticSearch` (search.controller.js lines 7–63): require a truthy
query; a rejected embedding or vector call aborts the request; a falsy or
non-success embedding body is a 500; the vector search is issued with `k =
limit` and its `results` field is dereferenced without a fallback. -/
def semanticSearch (b : Backend) (req : SearchRequest) :
    Outcome SemanticResponse × List BackendCall :=
  if ¬ truthyOpt req.query then (.jsonError 400 "Search query is required", [])
  else
    let limit := req.limit.getD 5
    let q := req.query.getD ""
    match b.embed with
    | none => (.serverError, [.embedText q])
    | some er =>
      if embedOk er then
        match b.vectorSearch with
        | none => (.serverError, [.embedText q, .vectorSearch limit])
        | some vr =>
          match vr.data.results with
          | none => (.serverError, [.embedText q, .vectorSearch limit])
          | some rs =>
            let results := rs.map (fun r => PresentedResult.mk r.text r.score r.metadata
              (highlightQuery r.text (some q)))
            (.ok ⟨q, results, jsOrInt vr.data.total_matches results.length,
               jsOrInt vr.data.query_time_ms 0⟩, [.embedText q, .vectorSearch limit])
      else (.jsonError 500 "Failed to generate embedding for query", [.embedText q])

/-! ### The ingestion normalizer (`createDocument`,
document.controller.js lines 229–264)

The generated identifier `` `doc_${Date.now()}_${Math.random()…}` `` is
nondeterministic; the model takes the generator's output as the explicit
parameter `gen`.  The MCP collaborator is again a per-request double, and the
posted `{ documents: [...] }` batches are recorded. -/

/-- JS object property read (`metadata[key]`), `none` for an absent key. -/
def jsGet (m : List (String × String)) (key : String) : Option String :=
  match m with
  | [] => none
  | (k, v) :: rest => if k = key then some v else jsGet rest key

/-- JS object property write (`metadata[key] = v`): overwrite in place or
append. -/
def jsSet (m : List (String × String)) (key : String) (v : String) :
    List (String × String) :=
  match m with
  | [] => [(key, v)]
  | (k, v') :: rest => if k = key then (k, v) :: rest else (k, v') :: jsSet rest key v

/-- `a || d` for an optional string against a string default. -/
def jsOrStr (o : Option String) (d : String) : String :=
  match o with
  | none => d
  | some s => if s = "" then d else s

/-- A create-document request body (`{ text, metadata = {} }`). -/
structure CreateDocRequest where
  text : Option String
  metadata : Option (List (String × String))
deriving DecidableEq, Repr

/-- A document of the outbound `{ documents: [...] }` batch posted to MCP. -/
structure OutboundDoc where
  text : String
  document_id : String
  metadata : List (String × String)
deriving DecidableEq, Repr

/-- MCP ingestion response body (`{ success, message? }`). -/
structure McpData where
  success : Bool
  message : Option String
deriving DecidableEq, Repr

/-- A resolved MCP call. -/
structure McpResult where
  data : McpData
deriving DecidableEq, Repr

/-- Outcome of `createDocument`. -/
inductive CreateOutcome where
  | jsonError (status : Int) (error : String)
  | serverError
  | created (documentId : String)
deriving DecidableEq, Repr

/-- `createDocument` (document.controller.js lines 229–264): require truthy
text, resolve `documentId = metadata.document_id || gen`, merge it back with
`metadata.document_id = documentId`, post the one-document batch, and answer
201 with the resolved id (or surface the MCP failure). -/
def createDocument (gen : String) (mcp : Option McpResult) (req : CreateDocRequest) :
    CreateOutcome × List (List OutboundDoc) :=
  if ¬ truthyOpt req.text then (.jsonError 400 "Document text is required", [])
  else
    let metadata := req.metadata.getD []
    let documentId := jsOrStr (jsGet metadata "document_id") gen
    let metadata' := jsSet metadata "document_id" documentId
    let outDoc : OutboundDoc := ⟨req.text.getD "", documentId, metadata'⟩
    match mcp with
    | none => (.serverError, [[outDoc]])
    | some r =>
      if r.data.success then (.created documentId, [[outDoc]])
      else (.jsonError 500 (jsOrStr r.data.message "MCP ingestion failed"), [[outDoc]])

/-- The spec's reading of the highlighting rule (§4.4): wrap each
case-insensitive whole-word occurrence of a surviving query token; when no
token survives the length filter there is no occurrence to wrap and the text
is returned unmodified.  It shares the scan with `highlightQuery` and differs
from it exactly on the no-surviving-token case, where the source's regex
degenerates to `\b()\b`. -/
def specHighlight (text : String) (q : String) : String :=
  match keptTokens q with
  | [] => text
  | ts => String.mk (scanText ts none text.data (text.data.length + 1))

/-! ### Concrete inputs used by witnesses and counterexamples -/

/-- An empty metadata object. -/
def mEmpty : Metadata := ⟨none, []⟩

/-- Semantic candidate of the spec's worked example (`{id:"a", score:0.9}`). -/
def candSemA : Candidate := ⟨some "a", "ta", 9/10, mEmpty⟩

/-- Keyword candidate matching it (`{id:"a", score:0.8}`). -/
def candKwA : Candidate := ⟨some "a", "ka", 8/10, mEmpty⟩

/-- Keyword-only candidate (`{id:"b", score:0.5}`). -/
def candKwB : Candidate := ⟨some "b", "kb", 5/10, mEmpty⟩

/-- A candidate with unit score and identity key `"a"`. -/
def candA1 : Candidate := ⟨some "a", "ta", 1, mEmpty⟩

/-- A candidate with unit score and identity key `"b"`. -/
def candB1 : Candidate := ⟨some "b", "tb", 1, mEmpty⟩

/-- A malformed candidate: no chunk identifier, no `doc_id` in metadata. -/
def candNoId1 : Candidate := ⟨none, "t1", 1, mEmpty⟩

/-- A second malformed candidate, with different text and score. -/
def candNoId2 : Candidate := ⟨none, "t2", 1/2, mEmpty⟩

/-- A backend whose every collaborator call rejects. -/
def backendAllThrow : Backend := ⟨none, none, none⟩

/-- A backend whose embedding call rejects while keyword search works. -/
def backendEmbedThrow : Backend := ⟨none, none, some ⟨⟨some [candKwB]⟩⟩⟩

/-- A backend whose embedding call resolves with a falsy body (non-success)
while keyword search works. -/
def backendEmbedBad : Backend := ⟨some ⟨none⟩, none, some ⟨⟨some [candKwB]⟩⟩⟩

/-- A backend for keyword-only requests, returning one unit-score candidate. -/
def backendKwOnly : Backend := ⟨none, none, some ⟨⟨some [candB1]⟩⟩⟩

/-- A hybrid request with both a query and a keyword string. -/
def reqQueryKw : SearchRequest := ⟨some "q", some "keyword", none⟩

/-- A hybrid request with a query only. -/
def reqQueryOnly : SearchRequest := ⟨some "q", none, none⟩

/-- A keyword-only request with the default limit left absent. -/
def reqKwOnly : SearchRequest := ⟨none, some "keyword", some 5⟩

/-- A request with neither a truthy query nor a truthy keyword string. -/
def reqNeither : SearchRequest := ⟨none, some "", none⟩

/-- The spec's ingestion example: text `"hello"`, no metadata, no id. -/
def reqDocHello : CreateDocRequest := ⟨some "hello", none⟩

/-- A successful MCP ingestion response. -/
def mcpSuccess : Option McpResult := some ⟨⟨true, none⟩⟩

end McpSearch

namespace McpSearch

/-! ### Lemmas about the reranking map -/

theorem lookupKey_setEntry (key k' : Option String) (v : FusedEntry) (m : RerankMap) :
    lookupKey key (setEntry k' v m) = if k' = key then some v else lookupKey key m := by
  induction m with
  | nil => simp [setEntry, lookupKey]
  | cons p rest ih =>
    obtain ⟨k, e⟩ := p
    by_cases h1 : k = k'
    · subst h1
      by_cases h2 : k = key <;> simp [setEntry, lookupKey, h2]
    · by_cases h2 : k = key
      · subst h2
        have h3 : ¬ k' = k := fun h => h1 h.symm
        simp [setEntry, lookupKey, h1, h3]
      · simp [setEntry, lookupKey, h1, h2, ih]

theorem lookupKey_kwUpdate (m : RerankMap) (c : Candidate) (key : Option String) :
    lookupKey key (kwUpdate m c) =
      if resolveId c = key then
        some (match lookupKey key m with
          | some e => kwMerge e c.score
          | none => kwEntry c)
      else lookupKey key m := by
  induction m with
  | nil =>
    by_cases h : resolveId c = key <;> simp [kwUpdate, lookupKey, h]
  | cons p rest ih =>
    obtain ⟨k, e⟩ := p
    by_cases h1 : k = resolveId c <;> by_cases h2 : resolveId c = key
    · have hk : k = key := h1.trans h2
      simp [kwUpdate, lookupKey, h1, h2, hk]
    · have hk : ¬ k = key := fun h => h2 (h1.symm.trans h)
      simp [kwUpdate, lookupKey, h1, h2, hk]
    · have hk : ¬ k = key := fun h => h1 (h.trans h2.symm)
      simp [kwUpdate, lookupKey, h1, h2, hk, ih]
    · by_cases hk : k = key
      · subst hk
        have h1' : ¬ k = resolveId c := h1
        have h1'' : ¬ resolveId c = k := fun h => h1 h.symm
        simp [kwUpdate, lookupKey, h1', h1'', h2]
      · simp [kwUpdate, lookupKey, h1, h2, hk, ih]

theorem lookupKey_semPass_filter_nil {key : Option String} :
    ∀ (cs : List Candidate) (m : RerankMap),
      cs.filter (fun c => resolveId c = key) = [] →
      lookupKey key (semPass m cs) = lookupKey key m := by
  intro cs
  induction cs with
  | nil => intro m _; rfl
  | cons c cs ih =>
    intro m h
    rw [List.filter_cons] at h
    by_cases hc : resolveId c = key
    · simp [hc] at h
    · have h' : cs.filter (fun c => resolveId c = key) = [] := by simpa [hc] using h
      show lookupKey key (semPass (setEntry (resolveId c) (semEntry c) m) cs) = _
      rw [ih _ h', lookupKey_setEntry, if_neg hc]

theorem lookupKey_semPass_filter_singleton {key : Option String} {c₀ : Candidate} :
    ∀ (cs : List Candidate) (m : RerankMap),
      cs.filter (fun c => resolveId c = key) = [c₀] →
      lookupKey key (semPass m cs) = some (semEntry c₀) := by
  intro cs
  induction cs with
  | nil => intro m h; simp at h
  | cons c cs ih =>
    intro m h
    rw [List.filter_cons] at h
    by_cases hc : resolveId c = key
    · have h' : c = c₀ ∧ cs.filter (fun c => resolveId c = key) = [] := by
        simpa [hc] using h
      obtain ⟨rfl, hnil⟩ := h'
      show lookupKey key (semPass (setEntry (resolveId c) (semEntry c) m) cs) = _
      rw [lookupKey_semPass_filter_nil cs _ hnil, lookupKey_setEntry, if_pos hc]
    · have h' : cs.filter (fun c => resolveId c = key) = [c₀] := by simpa [hc] using h
      exact ih _ h'

theorem lookupKey_kwPass_filter_nil {key : Option String} :
    ∀ (ks : List Candidate) (m : RerankMap),
      ks.filter (fun c => resolveId c = key) = [] →
      lookupKey key (kwPass m ks) = lookupKey key m := by
  intro ks
  induction ks with
  | nil => intro m _; rfl
  | cons c ks ih =>
    intro m h
    rw [List.filter_cons] at h
    by_cases hc : resolveId c = key
    · simp [hc] at h
    · have h' : ks.filter (fun c => resolveId c = key) = [] := by simpa [hc] using h
      show lookupKey key (kwPass (kwUpdate m c) ks) = _
      rw [ih _ h', lookupKey_kwUpdate, if_neg hc]

theorem lookupKey_kwPass_filter_singleton {key : Option String} {c₀ : Candidate} :
    ∀ (ks : List Candidate) (m : RerankMap),
      ks.filter (fun c => resolveId c = key) = [c₀] →
      lookupKey key (kwPass m ks) =
        some (match lookupKey key m with
          | some e => kwMerge e c₀.score
          | none => kwEntry c₀) := by
  intro ks
  induction ks with
  | nil => intro m h; simp at h
  | cons c ks ih =>
    intro m h
    rw [List.filter_cons] at h
    by_cases hc : resolveId c = key
    · have h' : c = c₀ ∧ ks.filter (fun c => resolveId c = key) = [] := by
        simpa [hc] using h
      obtain ⟨rfl, hnil⟩ := h'
      show lookupKey key (kwPass (kwUpdate m c) ks) = _
      rw [lookupKey_kwPass_filter_nil ks _ hnil, lookupKey_kwUpdate, if_pos hc]
    · have h' : ks.filter (fun c => resolveId c = key) = [c₀] := by simpa [hc] using h
      show lookupKey key (kwPass (kwUpdate m c) ks) = _
      rw [ih _ h', lookupKey_kwUpdate, if_neg hc]

theorem isSome_lookupKey_setEntry {key k' : Option String} {v : FusedEntry} {m : RerankMap}
    (h : (lookupKey key m).isSome = true) :
    (lookupKey key (setEntry k' v m)).isSome = true := by
  rw [lookupKey_setEntry]
  split <;> simp [h]

theorem isSome_lookupKey_kwUpdate {key : Option String} {c : Candidate} {m : RerankMap}
    (h : (lookupKey key m).isSome = true) :
    (lookupKey key (kwUpdate m c)).isSome = true := by
  rw [lookupKey_kwUpdate]
  split
  · split <;> simp
  · exact h

theorem isSome_lookupKey_semPass {key : Option String} :
    ∀ (cs : List Candidate) (m : RerankMap), (lookupKey key m).isSome = true →
      (lookupKey key (semPass m cs)).isSome = true := by
  intro cs
  induction cs with
  | nil => intro m h; exact h
  | cons c cs ih =>
    intro m h
    exact ih _ (isSome_lookupKey_setEntry h)

theorem isSome_lookupKey_kwPass {key : Option String} :
    ∀ (ks : List Candidate) (m : RerankMap), (lookupKey key m).isSome = true →
      (lookupKey key (kwPass m ks)).isSome = true := by
  intro ks
  induction ks with
  | nil => intro m h; exact h
  | cons c ks ih =>
    intro m h
    exact ih _ (isSome_lookupKey_kwUpdate h)

theorem isSome_lookupKey_semPass_of_mem {key : Option String} :
    ∀ (cs : List Candidate) (m : RerankMap) (c : Candidate), c ∈ cs → resolveId c = key →
      (lookupKey key (semPass m cs)).isSome = true := by
  intro cs
  induction cs with
  | nil => intro m c hc; exact absurd hc (List.not_mem_nil c)
  | cons c' cs ih =>
    intro m c hc hid
    rcases List.mem_cons.mp hc with rfl | hmem
    · show (lookupKey key (semPass (setEntry (resolveId c) (semEntry c) m) cs)).isSome = true
      apply isSome_lookupKey_semPass
      rw [lookupKey_setEntry, if_pos hid]
      rfl
    · exact ih _ c hmem hid

theorem isSome_lookupKey_kwPass_of_mem {key : Option String} :
    ∀ (ks : List Candidate) (m : RerankMap) (c : Candidate), c ∈ ks → resolveId c = key →
      (lookupKey key (kwPass m ks)).isSome = true := by
  intro ks
  induction ks with
  | nil => intro m c hc; exact absurd hc (List.not_mem_nil c)
  | cons c' ks ih =>
    intro m c hc hid
    rcases List.mem_cons.mp hc with rfl | hmem
    · show (lookupKey key (kwPass (kwUpdate m c) ks)).isSome = true
      apply isSome_lookupKey_kwPass
      rw [lookupKey_kwUpdate, if_pos hid]
      split <;> rfl
    · exact ih _ c hmem hid

theorem mapKeys_setEntry (key : Option String) (v : FusedEntry) :
    ∀ m : RerankMap, mapKeys (setEntry key v m) =
      if key ∈ mapKeys m then mapKeys m else mapKeys m ++ [key] := by
  intro m
  induction m with
  | nil => simp [setEntry, mapKeys]
  | cons p rest ih =>
    obtain ⟨k, e⟩ := p
    by_cases h : k = key
    · subst h
      simp [setEntry, mapKeys]
    · have h' : ¬ key = k := fun hh => h hh.symm
      have lhs : mapKeys (setEntry key v ((k, e) :: rest)) = k :: mapKeys (setEntry key v rest) := by
        simp [setEntry, h, mapKeys]
      rw [lhs, ih]
      have hcons : mapKeys ((k, e) :: rest) = k :: mapKeys rest := rfl
      by_cases hin : key ∈ mapKeys rest
      · rw [if_pos hin, if_pos (by rw [hcons]; exact List.mem_cons_of_mem _ hin), hcons]
      · rw [if_neg hin, if_neg (by
          rw [hcons]
          intro hmem
          rcases List.mem_cons.mp hmem with h1 | h1
          · exact h' h1
          · exact hin h1), hcons]
        rfl

theorem mapKeys_kwUpdate (c : Candidate) :
    ∀ m : RerankMap, mapKeys (kwUpdate m c) =
      if resolveId c ∈ mapKeys m then mapKeys m else mapKeys m ++ [resolveId c] := by
  intro m
  induction m with
  | nil => simp [kwUpdate, mapKeys]
  | cons p rest ih =>
    obtain ⟨k, e⟩ := p
    by_cases h : k = resolveId c
    · subst h
      simp [kwUpdate, mapKeys]
    · have h' : ¬ resolveId c = k := fun hh => h hh.symm
      have lhs : mapKeys (kwUpdate ((k, e) :: rest) c) = k :: mapKeys (kwUpdate rest c) := by
        simp [kwUpdate, h, mapKeys]
      rw [lhs, ih]
      have hcons : mapKeys ((k, e) :: rest) = k :: mapKeys rest := rfl
      by_cases hin : resolveId c ∈ mapKeys rest
      · rw [if_pos hin, if_pos (by rw [hcons]; exact List.mem_cons_of_mem _ hin), hcons]
      · rw [if_neg hin, if_neg (by
          rw [hcons]
          intro hmem
          rcases List.mem_cons.mp hmem with h1 | h1
          · exact h' h1
          · exact hin h1), hcons]
        rfl

theorem nodup_mapKeys_setEntry {key : Option String} {v : FusedEntry} {m : RerankMap}
    (h : (mapKeys m).Nodup) : (mapKeys (setEntry key v m)).Nodup := by
  rw [mapKeys_setEntry]
  split
  · exact h
  · next hin => simp [List.nodup_append, h, hin]

theorem nodup_mapKeys_kwUpdate {c : Candidate} {m : RerankMap}
    (h : (mapKeys m).Nodup) : (mapKeys (kwUpdate m c)).Nodup := by
  rw [mapKeys_kwUpdate]
  split
  · exact h
  · next hin => simp [List.nodup_append, h, hin]

theorem nodup_mapKeys_semPass :
    ∀ (cs : List Candidate) (m : RerankMap), (mapKeys m).Nodup →
      (mapKeys (semPass m cs)).Nodup := by
  intro cs
  induction cs with
  | nil => intro m h; exact h
  | cons c cs ih => intro m h; exact ih _ (nodup_mapKeys_setEntry h)

theorem nodup_mapKeys_kwPass :
    ∀ (ks : List Candidate) (m : RerankMap), (mapKeys m).Nodup →
      (mapKeys (kwPass m ks)).Nodup := by
  intro ks
  induction ks with
  | nil => intro m h; exact h
  | cons c ks ih => intro m h; exact ih _ (nodup_mapKeys_kwUpdate h)

theorem nodup_mapKeys_fuseMap (s k : List Candidate) : (mapKeys (fuseMap s k)).Nodup :=
  nodup_mapKeys_kwPass k _ (nodup_mapKeys_semPass s [] (by simp [mapKeys]))

theorem entryId_semEntry (c : Candidate) : entryId (semEntry c) = resolveId c := rfl

theorem entryId_kwEntry (c : Candidate) : entryId (kwEntry c) = resolveId c := rfl

theorem entryId_kwMerge (e : FusedEntry) (w : ℚ) : entryId (kwMerge e w) = entryId e := rfl

theorem mem_setEntry {p : Option String × FusedEntry} {key : Option String} {v : FusedEntry} :
    ∀ {m : RerankMap}, p ∈ setEntry key v m → p = (key, v) ∨ p ∈ m := by
  intro m
  induction m with
  | nil =>
    intro h
    simp [setEntry] at h
    exact Or.inl (by simp [h])
  | cons q rest ih =>
    obtain ⟨k, e⟩ := q
    intro h
    by_cases hk : k = key
    · subst hk
      rw [setEntry, if_pos rfl] at h
      rcases List.mem_cons.mp h with rfl | hmem
      · exact Or.inl rfl
      · exact Or.inr (List.mem_cons_of_mem _ hmem)
    · rw [setEntry, if_neg hk] at h
      rcases List.mem_cons.mp h with rfl | hmem
      · exact Or.inr (List.mem_cons_self _ _)
      · rcases ih hmem with h' | h'
        · exact Or.inl h'
        · exact Or.inr (List.mem_cons_of_mem _ h')

theorem mem_kwUpdate {p : Option String × FusedEntry} {c : Candidate} :
    ∀ {m : RerankMap}, p ∈ kwUpdate m c →
      p = (resolveId c, kwEntry c) ∨ p ∈ m ∨
        ∃ e, p = (resolveId c, kwMerge e c.score) ∧ (resolveId c, e) ∈ m := by
  intro m
  induction m with
  | nil =>
    intro h
    simp [kwUpdate] at h
    exact Or.inl (by simp [h])
  | cons q rest ih =>
    obtain ⟨k, e⟩ := q
    intro h
    by_cases hk : k = resolveId c
    · subst hk
      rw [kwUpdate, if_pos rfl] at h
      rcases List.mem_cons.mp h with rfl | hmem
      · exact Or.inr (Or.inr ⟨e, rfl, List.mem_cons_self _ _⟩)
      · exact Or.inr (Or.inl (List.mem_cons_of_mem _ hmem))
    · rw [kwUpdate, if_neg hk] at h
      rcases List.mem_cons.mp h with rfl | hmem
      · exact Or.inr (Or.inl (List.mem_cons_self _ _))
      · rcases ih hmem with h' | h' | ⟨e', he', hm'⟩
        · exact Or.inl h'
        · exact Or.inr (Or.inl (List.mem_cons_of_mem _ h'))
        · exact Or.inr (Or.inr ⟨e', he', List.mem_cons_of_mem _ hm'⟩)

theorem keyConsistent_setEntry {m : RerankMap} {key : Option String} {v : FusedEntry}
    (h : keyConsistent m) (hv : entryId v = key) : keyConsistent (setEntry key v m) := by
  intro p hp
  rcases mem_setEntry hp with rfl | hmem
  · exact hv
  · exact h p hmem

theorem keyConsistent_kwUpdate {m : RerankMap} {c : Candidate}
    (h : keyConsistent m) : keyConsistent (kwUpdate m c) := by
  intro p hp
  rcases mem_kwUpdate hp with rfl | hmem | ⟨e, rfl, hm⟩
  · exact entryId_kwEntry c
  · exact h p hmem
  · show entryId (kwMerge e c.score) = resolveId c
    rw [entryId_kwMerge]
    exact h (resolveId c, e) hm

theorem keyConsistent_semPass :
    ∀ (cs : List Candidate) (m : RerankMap), keyConsistent m →
      keyConsistent (semPass m cs) := by
  intro cs
  induction cs with
  | nil => intro m h; exact h
  | cons c cs ih =>
    intro m h
    exact ih _ (keyConsistent_setEntry h (entryId_semEntry c))

theorem keyConsistent_kwPass :
    ∀ (ks : List Candidate) (m : RerankMap), keyConsistent m →
      keyConsistent (kwPass m ks) := by
  intro ks
  induction ks with
  | nil => intro m h; exact h
  | cons c ks ih =>
    intro m h
    exact ih _ (keyConsistent_kwUpdate h)

theorem keyConsistent_fuseMap (s k : List Candidate) : keyConsistent (fuseMap s k) :=
  keyConsistent_kwPass k _ (keyConsistent_semPass s [] (fun p hp => absurd hp (List.not_mem_nil p)))

theorem filter_map_snd (key : Option String) :
    ∀ (m : RerankMap), (mapKeys m).Nodup → keyConsistent m →
      (m.map Prod.snd).filter (fun e => entryId e = key) =
        match lookupKey key m with
        | some e => [e]
        | none => [] := by
  intro m
  induction m with
  | nil => intro _ _; rfl
  | cons p rest ih =>
    obtain ⟨k, e⟩ := p
    intro hn hc
    have he : entryId e = k := hc (k, e) (List.mem_cons_self _ _)
    have hk_not : k ∉ mapKeys rest := by
      have := hn
      simp only [mapKeys, List.map_cons, List.nodup_cons] at this
      exact this.1
    have hn' : (mapKeys rest).Nodup := by
      have := hn
      simp only [mapKeys, List.map_cons, List.nodup_cons] at this
      exact this.2
    have hc' : keyConsistent rest := fun q hq => hc q (List.mem_cons_of_mem _ hq)
    by_cases hk : k = key
    · subst hk
      have hrest : (rest.map Prod.snd).filter (fun x => entryId x = k) = [] := by
        rw [List.filter_eq_nil_iff]
        intro x hx
        obtain ⟨q, hq, rfl⟩ := List.mem_map.mp hx
        have hq1 : entryId q.2 = q.1 := hc' q hq
        simp only [hq1, decide_eq_true_eq]
        intro hq2
        exact hk_not (hq2 ▸ List.mem_map_of_mem Prod.fst hq)
      simp [lookupKey, List.filter_cons, he, hrest]
    · simp [lookupKey, List.filter_cons, he, hk, ih hn' hc']

/-! ### Lemmas about the stable sort and the slice -/

theorem insertDesc_perm (x : FusedEntry) (l : List FusedEntry) :
    List.Perm (insertDesc x l) (x :: l) := by
  induction l with
  | nil => exact List.Perm.refl _
  | cons y ys ih =>
    rw [insertDesc]
    split
    · exact List.Perm.refl _
    · exact (ih.cons y).trans (List.Perm.swap x y ys)

theorem sortDesc_perm (l : List FusedEntry) : List.Perm (sortDesc l) l := by
  induction l with
  | nil => exact List.Perm.refl _
  | cons x xs ih => exact (insertDesc_perm x (sortDesc xs)).trans (ih.cons x)

theorem sortDesc_length (l : List FusedEntry) : (sortDesc l).length = l.length :=
  (sortDesc_perm l).length_eq

theorem mem_insertDesc {z x : FusedEntry} {l : List FusedEntry} :
    z ∈ insertDesc x l ↔ z = x ∨ z ∈ l := by
  rw [(insertDesc_perm x l).mem_iff, List.mem_cons]

theorem pairwise_insertDesc {x : FusedEntry} {l : List FusedEntry}
    (h : l.Pairwise (fun a b => b.score ≤ a.score)) :
    (insertDesc x l).Pairwise (fun a b => b.score ≤ a.score) := by
  induction l with
  | nil => simp [insertDesc]
  | cons y ys ih =>
    rw [List.pairwise_cons] at h
    obtain ⟨hy, hys⟩ := h
    rw [insertDesc]
    split
    · next hxy =>
      rw [List.pairwise_cons]
      refine ⟨?_, List.pairwise_cons.mpr ⟨hy, hys⟩⟩
      intro z hz
      rcases List.mem_cons.mp hz with rfl | hz'
      · exact hxy
      · exact le_trans (hy z hz') hxy
    · next hxy =>
      rw [List.pairwise_cons]
      refine ⟨?_, ih hys⟩
      intro z hz
      rcases mem_insertDesc.mp hz with rfl | hz'
      · exact le_of_lt (lt_of_not_ge hxy)
      · exact hy z hz'

theorem pairwise_sortDesc (l : List FusedEntry) :
    (sortDesc l).Pairwise (fun a b => b.score ≤ a.score) := by
  induction l with
  | nil => simp [sortDesc]
  | cons x xs ih => exact pairwise_insertDesc ih

theorem filter_insertDesc (x : FusedEntry) (l : List FusedEntry) (q : ℚ) :
    (insertDesc x l).filter (fun e => e.score = q) =
      if x.score = q then x :: l.filter (fun e => e.score = q)
      else l.filter (fun e => e.score = q) := by
  induction l with
  | nil =>
    by_cases hx : x.score = q <;> simp [insertDesc, hx]
  | cons y ys ih =>
    rw [insertDesc]
    split
    · by_cases hx : x.score = q <;> simp [List.filter_cons, hx]
    · next hxy =>
      by_cases hx : x.score = q
      · have hy : ¬ y.score = q := by
          intro hyq
          exact hxy (le_of_eq (hyq.trans hx.symm))
        rw [List.filter_cons, List.filter_cons]
        simp [hy, hx, ih]
      · rw [List.filter_cons, List.filter_cons]
        by_cases hy : y.score = q <;> simp [hy, ih, hx]

theorem filter_sortDesc (l : List FusedEntry) (q : ℚ) :
    (sortDesc l).filter (fun e => e.score = q) = l.filter (fun e => e.score = q) := by
  induction l with
  | nil => rfl
  | cons x xs ih =>
    rw [sortDesc, filter_insertDesc, List.filter_cons]
    by_cases hx : x.score = q <;> simp [hx, ih]

theorem hybridReranking_eq_sortDesc {s k : List Candidate} {limit : Int}
    (h : ((fuseValues s k).length : Int) ≤ limit) :
    hybridReranking s k limit = sortDesc (fuseValues s k) := by
  have h0 : (0 : Int) ≤ limit := le_trans (Int.natCast_nonneg _) h
  rw [hybridReranking, jsSlice0, if_pos h0]
  apply List.take_of_length_le
  rw [sortDesc_length]
  have : (fuseValues s k).length = ((fuseValues s k).length : Int).toNat := rfl
  rw [this]
  exact Int.toNat_le_toNat h

theorem hybridReranking_filter_key {s k : List Candidate} {limit : Int} {key : Option String}
    (h : ((fuseValues s k).length : Int) ≤ limit) :
    (hybridReranking s k limit).filter (fun e => entryId e = key) =
      match lookupKey key (fuseMap s k) with
      | some e => [e]
      | none => [] := by
  rw [hybridReranking_eq_sortDesc h]
  have hperm := (sortDesc_perm (fuseValues s k)).filter (fun e => decide (entryId e = key))
  have hfv := filter_map_snd key (fuseMap s k) (nodup_mapKeys_fuseMap s k)
    (keyConsistent_fuseMap s k)
  rw [show fuseValues s k = (fuseMap s k).map Prod.snd from rfl] at hperm
  rw [hfv] at hperm
  cases hlu : lookupKey key (fuseMap s k) with
  | some e =>
    rw [hlu] at hperm
    exact List.perm_singleton.mp hperm
  | none =>
    rw [hlu] at hperm
    exact hperm.eq_nil

/-! ### Characterisation of the fused entry at a key -/

theorem fused_lookup_both {s k : List Candidate} {key : Option String} {cs ck : Candidate}
    (hs : s.filter (fun c => resolveId c = key) = [cs])
    (hk : k.filter (fun c => resolveId c = key) = [ck]) :
    lookupKey key (fuseMap s k) = some (kwMerge (semEntry cs) ck.score) := by
  rw [show fuseMap s k = kwPass (semPass [] s) k from rfl,
    lookupKey_kwPass_filter_singleton k _ hk,
    lookupKey_semPass_filter_singleton s _ hs]

theorem fused_lookup_semOnly {s k : List Candidate} {key : Option String} {cs : Candidate}
    (hs : s.filter (fun c => resolveId c = key) = [cs])
    (hk : k.filter (fun c => resolveId c = key) = []) :
    lookupKey key (fuseMap s k) = some (semEntry cs) := by
  rw [show fuseMap s k = kwPass (semPass [] s) k from rfl,
    lookupKey_kwPass_filter_nil k _ hk,
    lookupKey_semPass_filter_singleton s _ hs]

theorem fused_lookup_kwOnly {s k : List Candidate} {key : Option String} {ck : Candidate}
    (hs : s.filter (fun c => resolveId c = key) = [])
    (hk : k.filter (fun c => resolveId c = key) = [ck]) :
    lookupKey key (fuseMap s k) = some (kwEntry ck) := by
  rw [show fuseMap s k = kwPass (semPass [] s) k from rfl,
    lookupKey_kwPass_filter_singleton k _ hk,
    lookupKey_semPass_filter_nil s _ hs]
  rfl

theorem hybridReranking_nil_nil (limit : Int) : hybridReranking [] [] limit = [] := by
  show jsSlice0 (sortDesc (fuseValues [] [])) limit = []
  rw [show fuseValues [] [] = [] from rfl, show sortDesc [] = [] from rfl, jsSlice0]
  split <;> simp

theorem mem_jsSlice0 {l : List α} {e : Int} {x : α} (h : x ∈ jsSlice0 l e) : x ∈ l := by
  rw [jsSlice0] at h
  split at h <;> exact List.take_subset _ _ h

theorem mem_kwPass_inv {rs : List Candidate} :
    ∀ (sub : List Candidate) (m : RerankMap),
      (∀ c ∈ sub, c ∈ rs) →
      (∀ p ∈ m, p.2.semanticScore = 0 ∧ p.2.score = p.2.keywordScore * (3/10) ∧
        (∃ c ∈ rs, p.2.keywordScore = c.score) ∧
        (∃ c ∈ rs, p.2.text = c.text ∧ p.2.metadata = c.metadata ∧ p.2.chunk_id = c.chunk_id)) →
      ∀ p ∈ kwPass m sub, p.2.semanticScore = 0 ∧ p.2.score = p.2.keywordScore * (3/10) ∧
        (∃ c ∈ rs, p.2.keywordScore = c.score) ∧
        (∃ c ∈ rs, p.2.text = c.text ∧ p.2.metadata = c.metadata ∧ p.2.chunk_id = c.chunk_id) := by
  intro sub
  induction sub with
  | nil => intro m _ hm p hp; exact hm p hp
  | cons c sub ih =>
    intro m hsub hm p hp
    have hc : c ∈ rs := hsub c (List.mem_cons_self _ _)
    have hsub' : ∀ c' ∈ sub, c' ∈ rs := fun c' hc' => hsub c' (List.mem_cons_of_mem _ hc')
    refine ih (kwUpdate m c) hsub' ?_ p hp
    intro q hq
    rcases mem_kwUpdate hq with rfl | hmem | ⟨e, rfl, hm'⟩
    · exact ⟨rfl, rfl, ⟨c, hc, rfl⟩, ⟨c, hc, rfl, rfl, rfl⟩⟩
    · exact hm q hmem
    · obtain ⟨h0, _, _, htxt⟩ := hm (resolveId c, e) hm'
      refine ⟨h0, ?_, ⟨c, hc, rfl⟩, htxt⟩
      show e.semanticScore * (7/10) + c.score * (3/10) = c.score * (3/10)
      rw [h0]
      ring

theorem mem_hybridReranking_kwOnly {rs : List Candidate} {limit : Int} {e : FusedEntry}
    (h : e ∈ hybridReranking [] rs limit) :
    e.semanticScore = 0 ∧ e.score = e.keywordScore * (3/10) ∧
      (∃ c ∈ rs, e.keywordScore = c.score) ∧
      (∃ c ∈ rs, e.text = c.text ∧ e.metadata = c.metadata ∧ e.chunk_id = c.chunk_id) := by
  have h1 : e ∈ sortDesc (fuseValues [] rs) := mem_jsSlice0 h
  have h2 : e ∈ fuseValues [] rs := (sortDesc_perm _).mem_iff.mp h1
  obtain ⟨p, hp, rfl⟩ := List.mem_map.mp h2
  exact mem_kwPass_inv rs [] (fun c hc => hc) (fun q hq => absurd hq (List.not_mem_nil q)) p hp

theorem jsGet_jsSet (m : List (String × String)) (key v : String) :
    jsGet (jsSet m key v) key = some v := by
  induction m with
  | nil => simp [jsSet, jsGet]
  | cons p rest ih =>
    obtain ⟨k, v'⟩ := p
    by_cases h : k = key
    · subst h
      simp [jsSet, jsGet]
    · simp [jsSet, jsGet, h, ih]

/-! ### Claims -/

/-- C1: when a semantic candidate with score `s` and a keyword candidate with
score `w` are the unique carriers of an identity key in their lists, the fused
output (not truncated below the entry count) has exactly one entry for that
key, with `semanticScore = s`, `keywordScore = w` and combined score
`s * 0.7 + w * 0.3`; a key carried by only one list yields the other
constituent score 0 and combined score equal to the single weighted score. -/
theorem C1_fused_pair_scores (s k : List Candidate) (key : Option String) (limit : Int)
    (hL : ((fuseValues s k).length : Int) ≤ limit) :
    (∀ cs ck : Candidate, s.filter (fun c => resolveId c = key) = [cs] →
        k.filter (fun c => resolveId c = key) = [ck] →
        (hybridReranking s k limit).filter (fun e => entryId e = key) =
          [⟨cs.chunk_id, cs.text, cs.metadata, cs.score, ck.score,
            cs.score * (7/10) + ck.score * (3/10)⟩]) ∧
    (∀ cs : Candidate, s.filter (fun c => resolveId c = key) = [cs] →
        k.filter (fun c => resolveId c = key) = [] →
        (hybridReranking s k limit).filter (fun e => entryId e = key) =
          [⟨cs.chunk_id, cs.text, cs.metadata, cs.score, 0, cs.score * (7/10)⟩]) ∧
    (∀ ck : Candidate, s.filter (fun c => resolveId c = key) = [] →
        k.filter (fun c => resolveId c = key) = [ck] →
        (hybridReranking s k limit).filter (fun e => entryId e = key) =
          [⟨ck.chunk_id, ck.text, ck.metadata, 0, ck.score, ck.score * (3/10)⟩]) := by
  refine ⟨?_, ?_, ?_⟩
  · intro cs ck hs hk
    rw [hybridReranking_filter_key hL, fused_lookup_both hs hk]
    rfl
  · intro cs hs hk
    rw [hybridReranking_filter_key hL, fused_lookup_semOnly hs hk]
    rfl
  · intro ck hs hk
    rw [hybridReranking_filter_key hL, fused_lookup_kwOnly hs hk]
    rfl

/-- C1 witness: the spec's worked example (semantic `a` at 0.9, keyword `a` at
0.8 and `b` at 0.5, limit 5) instantiated at key `a`. -/
theorem C1_fused_pair_scores_witness :
    (hybridReranking [candSemA] [candKwA, candKwB] 5).filter
        (fun e => entryId e = some "a") =
      [⟨candSemA.chunk_id, candSemA.text, candSemA.metadata, candSemA.score, candKwA.score,
        candSemA.score * (7/10) + candKwA.score * (3/10)⟩] :=
  (C1_fused_pair_scores [candSemA] [candKwA, candKwB] (some "a") 5
    (by simp [fuseValues, fuseMap, semPass, kwPass, setEntry, kwUpdate, resolveId, jsId,
      truthyOpt, candSemA, candKwA, candKwB, mEmpty])).1 candSemA candKwA
    (by simp [resolveId, jsId, truthyOpt, candSemA, mEmpty])
    (by simp [resolveId, jsId, truthyOpt, candKwA, candKwB, mEmpty])

/-- C10: when a key occurs once in each list, the fused entry takes its text,
metadata and chunk identifier from the semantic candidate; the keyword
candidate contributes only its score. -/
theorem C10_semantic_fields_win (s k : List Candidate) (key : Option String) (limit : Int)
    (cs ck : Candidate)
    (hL : ((fuseValues s k).length : Int) ≤ limit)
    (hs : s.filter (fun c => resolveId c = key) = [cs])
    (hk : k.filter (fun c => resolveId c = key) = [ck]) :
    ∃ e : FusedEntry, (hybridReranking s k limit).filter (fun x => entryId x = key) = [e] ∧
      e.text = cs.text ∧ e.metadata = cs.metadata ∧ e.chunk_id = cs.chunk_id ∧
      e.semanticScore = cs.score ∧ e.keywordScore = ck.score := by
  refine ⟨kwMerge (semEntry cs) ck.score, ?_, rfl, rfl, rfl, rfl, rfl⟩
  rw [hybridReranking_filter_key hL, fused_lookup_both hs hk]

/-- C10 witness: the worked example again; the fused `a` entry carries the
semantic candidate's text and metadata and the keyword candidate's score. -/
theorem C10_semantic_fields_win_witness :
    ∃ e : FusedEntry,
      (hybridReranking [candSemA] [candKwA, candKwB] 5).filter
          (fun x => entryId x = some "a") = [e] ∧
      e.text = candSemA.text ∧ e.metadata = candSemA.metadata ∧
      e.chunk_id = candSemA.chunk_id ∧
      e.semanticScore = candSemA.score ∧ e.keywordScore = candKwA.score :=
  C10_semantic_fields_win [candSemA] [candKwA, candKwB] (some "a") 5 candSemA candKwA
    (by simp [fuseValues, fuseMap, semPass, kwPass, setEntry, kwUpdate, resolveId, jsId,
      truthyOpt, candSemA, candKwA, candKwB, mEmpty])
    (by simp [resolveId, jsId, truthyOpt, candSemA, mEmpty])
    (by simp [resolveId, jsId, truthyOpt, candKwA, candKwB, mEmpty])

/-- C2: for every pair of candidate lists and every (nonnegative, per the data
model) limit, the fused output has at most `limit` entries, is sorted by
combined score descending, and breaks ties by stable first-seen order: for
each score value, the entries carrying it appear as a prefix of the entries
carrying it in the map's insertion order (semantic-pass entries first, then
keyword-only entries, each in input order). -/
theorem C2_sorted_bounded_stable (s k : List Candidate) (limit : Nat) :
    (hybridReranking s k (limit : Int)).length ≤ limit ∧
    (hybridReranking s k (limit : Int)).Pairwise (fun a b => b.score ≤ a.score) ∧
    ∀ q : ℚ, ∃ rest,
      (hybridReranking s k (limit : Int)).filter (fun e => e.score = q) ++ rest =
        (fuseValues s k).filter (fun e => e.score = q) := by
  have hform : hybridReranking s k (limit : Int) = (sortDesc (fuseValues s k)).take limit := by
    rw [hybridReranking, jsSlice0, if_pos (Int.natCast_nonneg _)]
    norm_num
  refine ⟨?_, ?_, ?_⟩
  · rw [hform]
    exact List.length_take_le _ _
  · rw [hform]
    exact List.Pairwise.sublist (List.take_sublist _ _) (pairwise_sortDesc _)
  · intro q
    refine ⟨((sortDesc (fuseValues s k)).drop limit).filter (fun e => e.score = q), ?_⟩
    rw [hform, ← List.filter_append, List.take_append_drop, filter_sortDesc]

/-- C9 counterexample: `slice(0, limit)` with the negative limit −1 keeps all
but the last entry, so two distinct candidates fused with limit −1 yield a
nonempty result, contradicting "`limit` ≤ 0 yields an empty result". -/
theorem C9_counterexample : hybridReranking [candA1] [candB1] (-1) ≠ [] := by
  norm_num [hybridReranking, fuseValues, fuseMap, semPass, kwPass, setEntry, kwUpdate,
    resolveId, jsId, truthyOpt, semEntry, kwEntry, sortDesc, insertDesc, jsSlice0,
    candA1, candB1, mEmpty]

/-- C9 (amended): limit 0 yields an empty result for all inputs; two empty
input lists yield an empty result for every limit; but a negative limit `-n`
drops the last `n` entries (JS `slice` semantics), yielding an empty result
only when `n` reaches the entry count. -/
theorem C9_amended_limit_edge_cases :
    (∀ s k : List Candidate, hybridReranking s k 0 = []) ∧
    (∀ limit : Int, hybridReranking [] [] limit = []) ∧
    (∀ (s k : List Candidate) (n : Nat),
      (hybridReranking s k (-((n : Int) + 1))).length = (fuseValues s k).length - (n + 1)) := by
  refine ⟨?_, hybridReranking_nil_nil, ?_⟩
  · intro s k
    simp [hybridReranking, jsSlice0]
  · intro s k n
    have hneg : ¬ (0 : Int) ≤ -((n : Int) + 1) := by omega
    rw [hybridReranking, jsSlice0, if_neg hneg, List.length_take]
    simp only [sortDesc_length]
    omega

/-- C5 counterexample: two candidates with neither a chunk identifier nor a
metadata `doc_id` both get the key `undefined`, so they merge into a single
fused entry (the keyword one updates the semantic one's scores) instead of
surviving as two distinct unmatched entries. -/
theorem C5_counterexample :
    (hybridReranking [candNoId1] [candNoId2] 5).length = 1 ∧
    hybridReranking [candNoId1] [candNoId2] 5 =
      [⟨none, "t1", mEmpty, 1, 1/2, 17/20⟩] := by
  constructor <;>
    norm_num [hybridReranking, fuseValues, fuseMap, semPass, kwPass, setEntry, kwUpdate,
      resolveId, jsId, truthyOpt, semEntry, kwEntry, kwMerge, sortDesc, insertDesc, jsSlice0,
      candNoId1, candNoId2, mEmpty]

/-- C5 (amended): a candidate with neither identifier is assigned the single
shared absent (`undefined`) key rather than a resolver-unique fallback key;
all such candidates from both lists collapse into exactly one fused entry
(which does survive, and the request is not rejected), instead of surviving
as pairwise-distinct unmatched entries. -/
theorem C5_amended_shared_undefined_key (s k : List Candidate) (limit : Int)
    (hL : ((fuseValues s k).length : Int) ≤ limit)
    (hex : ∃ c : Candidate, (c ∈ s ∨ c ∈ k) ∧ resolveId c = none) :
    ((hybridReranking s k limit).filter (fun e => entryId e = none)).length = 1 := by
  rw [hybridReranking_filter_key hL]
  have hsome : (lookupKey none (fuseMap s k)).isSome = true := by
    obtain ⟨c, hc, hid⟩ := hex
    rcases hc with hcs | hck
    · exact isSome_lookupKey_kwPass k _ (isSome_lookupKey_semPass_of_mem s [] c hcs hid)
    · exact isSome_lookupKey_kwPass_of_mem k _ c hck hid
  obtain ⟨e, he⟩ := Option.isSome_iff_exists.mp hsome
  rw [he]
  rfl

/-- C5 witness: one identifier-less candidate in each list, fused with limit
5, leaves exactly one entry under the absent key. -/
theorem C5_amended_shared_undefined_key_witness :
    ((hybridReranking [candNoId1] [candNoId2] 5).filter
        (fun e => entryId e = none)).length = 1 :=
  C5_amended_shared_undefined_key [candNoId1] [candNoId2] 5
    (by simp [fuseValues, fuseMap, semPass, kwPass, setEntry, kwUpdate, resolveId, jsId,
      truthyOpt, candNoId1, candNoId2, mEmpty])
    ⟨candNoId1, Or.inl (List.mem_cons_self _ _),
      by simp [resolveId, jsId, truthyOpt, candNoId1, mEmpty]⟩

/-- C6: a search request with neither a truthy semantic query nor a truthy
keyword string is rejected with a 400 validation error naming the missing
input before any backend call is issued (empty call trace), on both the
hybrid and the semantic endpoint. -/
theorem C6_reject_before_backend_calls (b : Backend) (req : SearchRequest)
    (hq : truthyOpt req.query = false) (hk : truthyOpt req.keywords = false) :
    hybridSearch b req =
      (.jsonError 400 "Either search query or keywords are required", []) ∧
    semanticSearch b req = (.jsonError 400 "Search query is required", []) := by
  constructor
  · rw [hybridSearch, if_pos (by simp [hq, hk])]
  · rw [semanticSearch, if_pos (by simp [hq])]

/-- C6 witness: missing query and empty keyword string against a backend
double whose every call would reject; no call is recorded. -/
theorem C6_reject_before_backend_calls_witness :
    hybridSearch backendAllThrow reqNeither =
      (.jsonError 400 "Either search query or keywords are required", []) ∧
    semanticSearch backendAllThrow reqNeither =
      (.jsonError 400 "Search query is required", []) :=
  C6_reject_before_backend_calls backendAllThrow reqNeither (by decide) (by decide)

/-- C3 counterexample: a hybrid request carrying both a query and a keyword
string whose embedding call fails (rejects) ends in `next(error)` after the
embedding call, with the keyword service never called — not in keyword-only
results as the claim states. -/
theorem C3_counterexample :
    hybridSearch backendEmbedThrow reqQueryKw = (.serverError, [.embedText "q"]) := by
  decide

/-- C3 (amended): only an embedding call that resolves with a falsy or
non-success body abandons the semantic branch: then a hybrid request with a
truthy keyword string still returns keyword-only results, and one without a
keyword string returns an empty result set; a rejected (thrown) embedding
call instead fails the whole request. -/
theorem C3_amended_embed_nonsuccess (b : Backend) (req : SearchRequest) (er : EmbedResult)
    (hq : truthyOpt req.query = true)
    (hb : b.embed = some er) (hbad : embedOk er = false) :
    (∀ (kr : KSResult) (rs : List Candidate), truthyOpt req.keywords = true →
      b.keywordSearch = some kr → kr.data.results = some rs →
      hybridSearch b req =
        (.ok ⟨req.query, req.keywords,
          (hybridReranking [] rs (req.limit.getD 5)).map
            (present (jsOrOpt req.query req.keywords)),
          (((hybridReranking [] rs (req.limit.getD 5)).map
            (present (jsOrOpt req.query req.keywords))).length : Int)⟩,
         [.embedText (req.query.getD ""),
          .keywordSearch (req.keywords.getD "") ((req.limit.getD 5) * 2)])) ∧
    (truthyOpt req.keywords = false →
      hybridSearch b req =
        (.ok ⟨req.query, req.keywords, [], 0⟩, [.embedText (req.query.getD "")])) := by
  have hsem : semBranch b (req.query.getD "") (req.limit.getD 5) =
      (some [], [.embedText (req.query.getD "")]) := by
    rw [semBranch, hb]
    cases hd : er.data with
    | none => simp [hd]
    | some d =>
      have hds : d.success = false := by rwa [embedOk, hd] at hbad
      simp [hd, hds]
  constructor
  · intro kr rs hk hkr hrs
    have hkw : kwBranch b (req.keywords.getD "") (req.limit.getD 5) =
        (some rs, [.keywordSearch (req.keywords.getD "") ((req.limit.getD 5) * 2)]) := by
      rw [kwBranch, hkr]
      simp [hrs]
    rw [hybridSearch, if_neg (by simp [hq])]
    simp [hq, hk, hsem, hkw]
  · intro hk
    rw [hybridSearch, if_neg (by simp [hq])]
    simp [hq, hk, hsem, hybridReranking_nil_nil]

/-- C3 witness: embedding resolves with a falsy body; the keyword backend
returns one candidate; the request succeeds with keyword-only results. -/
theorem C3_amended_embed_nonsuccess_witness :
    hybridSearch backendEmbedBad reqQueryKw =
      (.ok ⟨reqQueryKw.query, reqQueryKw.keywords,
        (hybridReranking [] [candKwB] (reqQueryKw.limit.getD 5)).map
          (present (jsOrOpt reqQueryKw.query reqQueryKw.keywords)),
        (((hybridReranking [] [candKwB] (reqQueryKw.limit.getD 5)).map
          (present (jsOrOpt reqQueryKw.query reqQueryKw.keywords))).length : Int)⟩,
       [.embedText (reqQueryKw.query.getD ""),
        .keywordSearch (reqQueryKw.keywords.getD "") ((reqQueryKw.limit.getD 5) * 2)]) :=
  (C3_amended_embed_nonsuccess backendEmbedBad reqQueryKw ⟨none⟩ (by decide) rfl rfl).1
    ⟨⟨some [candKwB]⟩⟩ [candKwB] (by decide) rfl rfl

/-- C4 counterexample: a keyword-only request with limit 5 against a backend
returning one candidate with score 1 calls the keyword service with
`limit * 2 = 10` (not the caller's limit) and returns the candidate with
score `0.3` (the 0.3-weighted fused score), not the backend score 1. -/
theorem C4_counterexample :
    hybridSearch backendKwOnly reqKwOnly =
      (.ok ⟨none, some "keyword", [⟨"tb", 3/10, mEmpty, "tb"⟩], 1⟩,
       [.keywordSearch "keyword" 10]) ∧ (3/10 : ℚ) ≠ 1 := by
  constructor
  · have hhl : highlightQuery "tb" (some "keyword") = "tb" := by decide
    simp +decide [hybridSearch, kwBranch, semBranch, backendKwOnly, reqKwOnly, candB1, mEmpty,
      truthyOpt, jsOrOpt, present, hybridReranking, fuseValues, fuseMap, semPass, kwPass,
      setEntry, kwUpdate, resolveId, jsId, kwEntry, sortDesc, insertDesc, jsSlice0, hhl]
  · norm_num

/-- C4 (amended): a keyword-only request calls the keyword service with
`limit * 2` and routes its results through fusion: every returned entry has
`semanticScore = 0`, score equal to `0.3` times the backend score of some
returned candidate, and text/metadata of some returned candidate; the list is
re-sorted by that weighted score and truncated to the caller's limit. -/
theorem C4_amended_keyword_only_fused (b : Backend) (req : SearchRequest)
    (kr : KSResult) (rs : List Candidate)
    (hq : truthyOpt req.query = false) (hk : truthyOpt req.keywords = true)
    (hkr : b.keywordSearch = some kr) (hrs : kr.data.results = some rs) :
    hybridSearch b req =
      (.ok ⟨req.query, req.keywords,
        (hybridReranking [] rs (req.limit.getD 5)).map
          (present (jsOrOpt req.query req.keywords)),
        (((hybridReranking [] rs (req.limit.getD 5)).map
          (present (jsOrOpt req.query req.keywords))).length : Int)⟩,
       [.keywordSearch (req.keywords.getD "") ((req.limit.getD 5) * 2)]) ∧
    (∀ e ∈ hybridReranking [] rs (req.limit.getD 5),
      e.semanticScore = 0 ∧ e.score = e.keywordScore * (3/10) ∧
      (∃ c ∈ rs, e.keywordScore = c.score) ∧
      (∃ c ∈ rs, e.text = c.text ∧ e.metadata = c.metadata ∧ e.chunk_id = c.chunk_id)) := by
  constructor
  · have hkw : kwBranch b (req.keywords.getD "") (req.limit.getD 5) =
        (some rs, [.keywordSearch (req.keywords.getD "") ((req.limit.getD 5) * 2)]) := by
      rw [kwBranch, hkr]
      simp [hrs]
    rw [hybridSearch, if_neg (by simp [hk])]
    simp [hq, hk, hkw]
  · intro e he
    exact mem_hybridReranking_kwOnly he

/-- C4 witness: the keyword-only request and single-candidate backend of the
counterexample, run through the amended characterisation. -/
theorem C4_amended_keyword_only_fused_witness :
    hybridSearch backendKwOnly reqKwOnly =
      (.ok ⟨reqKwOnly.query, reqKwOnly.keywords,
        (hybridReranking [] [candB1] (reqKwOnly.limit.getD 5)).map
          (present (jsOrOpt reqKwOnly.query reqKwOnly.keywords)),
        (((hybridReranking [] [candB1] (reqKwOnly.limit.getD 5)).map
          (present (jsOrOpt reqKwOnly.query reqKwOnly.keywords))).length : Int)⟩,
       [.keywordSearch (reqKwOnly.keywords.getD "") ((reqKwOnly.limit.getD 5) * 2)]) ∧
    (∀ e ∈ hybridReranking [] [candB1] (reqKwOnly.limit.getD 5),
      e.semanticScore = 0 ∧ e.score = e.keywordScore * (3/10) ∧
      (∃ c ∈ [candB1], e.keywordScore = c.score) ∧
      (∃ c ∈ [candB1], e.text = c.text ∧ e.metadata = c.metadata ∧
        e.chunk_id = c.chunk_id)) :=
  C4_amended_keyword_only_fused backendKwOnly reqKwOnly ⟨⟨some [candB1]⟩⟩ [candB1]
    (by decide) (by decide) rfl rfl

/-- C8 counterexample: the nonempty query `"hi"` has no token longer than 2,
so by the claim no occurrence should be wrapped and the text should come back
unmodified; the code's degenerate regex `\b()\b` instead inserts empty
emphasis markers at every word boundary. -/
theorem C8_counterexample : highlightQuery "hello" (some "hi") ≠ "hello" := by
  decide

/-- C8 (amended): when at least one query token survives the length filter,
highlighting wraps each case-insensitive whole-word occurrence of a surviving
token exactly as the spec reads (the worked example marks only `diabetes`,
also against `Diabetes`), and an empty query or empty text is returned
unmodified; but a nonempty query none of whose tokens survives inserts empty
`<mark></mark>` markers at every word boundary instead of returning the text
unmodified. -/
theorem C8_amended_highlighting :
    (∀ (text q : String), q ≠ "" → text ≠ "" → keptTokens q ≠ [] →
      highlightQuery text (some q) = specHighlight text q) ∧
    highlightQuery "The patient has diabetes" (some "diabetes symptoms") =
      "The patient has <mark>diabetes</mark>" ∧
    highlightQuery "The patient has Diabetes" (some "diabetes symptoms") =
      "The patient has <mark>Diabetes</mark>" ∧
    (∀ text : String, highlightQuery text (some "") = text) ∧
    (∀ q : Option String, highlightQuery "" q = "") ∧
    highlightQuery "hello" (some "hi") = "<mark></mark>hello<mark></mark>" := by
  refine ⟨?_, by decide, by decide, ?_, ?_, by decide⟩
  · intro text q hq htext hkt
    rw [highlightQuery, specHighlight]
    rw [if_neg (by simp [hq, htext])]
    cases hts : keptTokens q with
    | nil => exact absurd hts hkt
    | cons t ts => rfl
  · intro text
    simp [highlightQuery]
  · intro q
    cases q with
    | none => rfl
    | some s => simp [highlightQuery]

/-- C8 witness: the refinement instantiated at the spec's worked example. -/
theorem C8_amended_highlighting_witness :
    highlightQuery "The patient has diabetes" (some "diabetes symptoms") =
      specHighlight "The patient has diabetes" "diabetes symptoms" :=
  C8_amended_highlighting.1 "The patient has diabetes" "diabetes symptoms"
    (by decide) (by decide) (by decide)

/-- C7: for a document with truthy text and no caller-supplied identifier
(no truthy `metadata.document_id`), `createDocument` posts a one-document
batch whose `document_id` and metadata `document_id` both equal the generated
identifier, and answers 201 with that same identifier. -/
theorem C7_generated_id_merged (gen : String) (mcp : Option McpResult) (r : McpResult)
    (req : CreateDocRequest)
    (htext : truthyOpt req.text = true)
    (hnoid : jsGet (req.metadata.getD []) "document_id" = none ∨
             jsGet (req.metadata.getD []) "document_id" = some "")
    (hmcp : mcp = some r) (hok : r.data.success = true) :
    createDocument gen mcp req =
      (.created gen,
       [[⟨req.text.getD "", gen, jsSet (req.metadata.getD []) "document_id" gen⟩]]) ∧
    jsGet (jsSet (req.metadata.getD []) "document_id" gen) "document_id" = some gen := by
  have hid : jsOrStr (jsGet (req.metadata.getD []) "document_id") gen = gen := by
    rcases hnoid with h | h <;> simp [jsOrStr, h]
  constructor
  · rw [createDocument, if_neg (by simp [htext])]
    simp [hid, hmcp, hok]
  · exact jsGet_jsSet _ _ _

/-- C7 witness: the spec's ingestion example — text `"hello"`, no metadata,
no identifier — with a successful store and a fixed generator output. -/
theorem C7_generated_id_merged_witness :
    createDocument "doc_1_abc" mcpSuccess reqDocHello =
      (.created "doc_1_abc",
       [[⟨reqDocHello.text.getD "", "doc_1_abc",
          jsSet (reqDocHello.metadata.getD []) "document_id" "doc_1_abc"⟩]]) ∧
    jsGet (jsSet (reqDocHello.metadata.getD []) "document_id" "doc_1_abc") "document_id" =
      some "doc_1_abc" :=
  C7_generated_id_merged "doc_1_abc" mcpSuccess ⟨⟨true, none⟩⟩ reqDocHello (by decide)
    (Or.inl rfl) rfl rfl

end McpSearch
